import Mathlib

/-!
Verification development for the compact-games automation core.

Shallow embedding of the Rust sources:
- `src/rust/src/automation/scheduler/mod.rs` and `types.rs` (AutoScheduler)
- `src/rust/src/automation/journal.rs` (JournalWriter, JournalEntry)
- `src/rust/src/automation/watcher/coalescer.rs` (EventCoalescer)
- `src/rust/src/progress/reporter.rs` (reporter_loop)
- `src/rust/src/compression/engine/wof_ops.rs` (compress_impl_from_manifest)

Modelling conventions:
- Rust `String` / `PathBuf` are modelled as `Str := List Nat` (byte/char codes);
  `to_ascii_lowercase` maps codes 65..90 to 97..122.
- `Instant` and `SystemTime` epoch seconds are `Nat`; `Duration` is a `Nat`
  count of seconds.  `Instant::duration_since` and `saturating_sub` are the
  truncated `Nat` subtraction, matching Rust's saturating behaviour.
- Stateful methods become pure functions `State → args → State` (or pairs with
  a result); ambient clock reads (`Instant::now()`, `SystemTime::now()`)
  become explicit `now` / `epoch` arguments.
-/

/-- Character/byte string, as a list of code points. -/
abbrev Str := List Nat

/-- ASCII lowercase of one code point (`u8::to_ascii_lowercase`). -/
def lowerChar (c : Nat) : Nat :=
  if 65 ≤ c ∧ c ≤ 90 then c + 32 else c

/-- Embeds `str::to_ascii_lowercase`. -/
def asciiLower (s : Str) : Str := s.map lowerChar

/-- Does `s` start with `pfx`?  Embeds `str::starts_with`. -/
def strStarts : Str → Str → Bool
  | _, [] => true
  | [], _ :: _ => false
  | c :: s, d :: p => c = d && strStarts s p

/-- Decimal digit codes of `n`, most significant first, with structural fuel.
Embeds the output of `format!` printing a `u64`. -/
def digitsAux : Nat → Nat → Str
  | 0, _ => []
  | fuel + 1, n => if n < 10 then [48 + n] else digitsAux fuel (n / 10) ++ [48 + n % 10]

/-- Decimal representation of `n` as a `Str`. -/
def digitsOf (n : Nat) : Str := digitsAux (n + 1) n

/-- Colon code point, the separator inside idempotency keys. -/
def colonCode : Nat := 58

/-- Idempotency key `"{lowercase(path)}:{epoch}"`, as minted by
`AutoScheduler::on_event` (scheduler/mod.rs:99,128). -/
def mintKey (path : Str) (epoch : Nat) : Str :=
  asciiLower path ++ [colonCode] ++ digitsOf epoch

/-- Replace the first element satisfying `p` by its image under `f`;
embeds `iter_mut().find(p)` followed by a mutation of the found element. -/
def updateFirst (p : α → Bool) (f : α → α) : List α → List α
  | [] => []
  | x :: xs => if p x then f x :: xs else x :: updateFirst p f xs

/-! ## Scheduler data model (scheduler/types.rs, journal.rs) -/

/-- `MAX_QUEUE_SIZE` (types.rs:10). -/
def MAX_QUEUE_SIZE : Nat := 64

/-- `MAX_FINISHED_JOBS` (types.rs:13). -/
def MAX_FINISHED_JOBS : Nat := 8

/-- `MAX_BACKOFF` in seconds (types.rs:16). -/
def MAX_BACKOFF : Nat := 30 * 60

/-- `INITIAL_BACKOFF` in seconds (types.rs:19). -/
def INITIAL_BACKOFF : Nat := 60

/-- `SchedulerState` (types.rs:23). -/
inductive SchedState
  | waitingForEvents
  | waitingForSettle
  | waitingForIdle
  | safetyCheck
  | compressing
  | paused
  | backoff
deriving DecidableEq, Repr

/-- `JobKind` (types.rs:35). -/
inductive JobKind
  | newInstall
  | reconcile
  | opportunistic
deriving DecidableEq, Repr

/-- `JobStatus` (types.rs:43). -/
inductive JobStatus
  | pending
  | waitingForSettle
  | waitingForIdle
  | compressing
  | completed
  | failed
  | skipped
deriving DecidableEq, Repr

/-- `AutomationJob` (types.rs:55). -/
structure AutomationJob where
  gamePath : Str
  gameName : Option Str
  kind : JobKind
  status : JobStatus
  idempotencyKey : Str
  queuedAt : Nat
  startedAt : Option Nat
  error : Option Str
deriving DecidableEq, Repr

/-- `JournalEventKind` (journal.rs:16). -/
inductive JournalEventKind
  | newInstall
  | reconcile
  | opportunistic
deriving DecidableEq, Repr

/-- `JournalEntry` (journal.rs:27). -/
structure JournalEntry where
  gamePath : Str
  gameName : Option Str
  eventKind : JournalEventKind
  idempotencyKey : Str
  queuedAt : Nat
deriving DecidableEq, Repr

/-- `WatchEvent` (watcher/mod.rs:26). -/
inductive WatchEvent
  | gameInstalled (path : Str) (gameName : Option Str)
  | gameUninstalled (path : Str) (gameName : Option Str)
  | gameModified (path : Str) (gameName : Option Str)
deriving DecidableEq, Repr

/-- `SchedulerAction` (types.rs:68). -/
inductive SchedAction
  | compress (job : AutomationJob)
  | persist
deriving DecidableEq, Repr

/-- `SchedulerConfig` (types.rs:76); `excluded_paths : HashSet<String>` is a
finite set of strings, modelled as a list queried by membership. -/
structure SchedConfig where
  cooldown : Nat
  excludedPaths : List Str
  watchPaths : List Str
deriving DecidableEq, Repr

/-- `AutoScheduler` combined with the in-memory entry list of its
`JournalWriter` (journal.rs:79 `pending`). -/
structure Sched where
  state : SchedState
  queue : List AutomationJob
  config : SchedConfig
  journal : List JournalEntry
  backoffUntil : Option Nat
  consecutiveFailures : Nat
  settleStarted : Option Nat
  needsPersist : Bool
deriving DecidableEq, Repr

/-- `AutoScheduler::new` (scheduler/mod.rs:35) with an empty journal writer. -/
def Sched.new (config : SchedConfig) : Sched :=
  { state := .waitingForEvents
    queue := []
    config := config
    journal := []
    backoffUntil := none
    consecutiveFailures := 0
    settleStarted := none
    needsPersist := false }

/-! ## Journal operations (journal.rs) -/

/-- `JournalWriter::insert` (journal.rs:102): no-op when the idempotency
key is already present, otherwise push. -/
def journalInsert (journal : List JournalEntry) (entry : JournalEntry) : List JournalEntry :=
  if journal.any (fun e => e.idempotencyKey = entry.idempotencyKey) then journal
  else journal ++ [entry]

/-- `JournalWriter::remove` (journal.rs:119). -/
def journalRemove (journal : List JournalEntry) (key : Str) : List JournalEntry :=
  journal.filter (fun e => ¬ e.idempotencyKey = key)

/-- `JournalWriter::remove_by_prefix` (journal.rs:130). -/
def journalRemoveByPfx (journal : List JournalEntry) (pfx : Str) : List JournalEntry :=
  journal.filter (fun e => ¬ strStarts e.idempotencyKey pfx)

/-- `JournalWriter::load` (journal.rs:183): merge loaded entries into memory
one by one, skipping keys already present; returns the new memory and the
added count. -/
def journalLoad (mem : List JournalEntry) : List JournalEntry → List JournalEntry × Nat
  | [] => (mem, 0)
  | entry :: rest =>
    if mem.any (fun e => e.idempotencyKey = entry.idempotencyKey) then
      journalLoad mem rest
    else
      let res := journalLoad (mem ++ [entry]) rest
      (res.1, res.2 + 1)

/-! ## Scheduler operations (scheduler/mod.rs) -/

/-- Is this status one of the pending-class statuses matched by the
`matches!(j.status, Pending | WaitingForSettle | WaitingForIdle)` checks? -/
def pendStatus (s : JobStatus) : Bool :=
  s = .pending ∨ s = .waitingForSettle ∨ s = .waitingForIdle

/-- Is this status one of the finished statuses
(`Completed | Failed | Skipped`)? -/
def finishedStatus (s : JobStatus) : Bool :=
  s = .completed ∨ s = .failed ∨ s = .skipped

/-- `AutoScheduler::enqueue_job` (scheduler/mod.rs:371): on overflow remove
the first non-`Compressing` entry, then push back. -/
def enqueueJob (s : Sched) (job : AutomationJob) : Sched :=
  let queue :=
    if MAX_QUEUE_SIZE ≤ s.queue.length then
      match s.queue.findIdx? (fun j => ¬ j.status = .compressing) with
      | some idx => s.queue.eraseIdx idx
      | none => s.queue
    else s.queue
  { s with queue := queue ++ [job] }

/-- `AutoScheduler::on_event` (scheduler/mod.rs:81). `now` is the value of
`Instant::now()` and `epoch` the value of `SystemTime::now()` in seconds at
the time of the call. -/
def onEvent (s : Sched) (event : WatchEvent) (now epoch : Nat) : Sched :=
  match event with
  | .gameUninstalled path _ =>
    let queue := s.queue.filter (fun j => ¬ j.gamePath = path)
    let pathPfx := asciiLower path ++ [colonCode]
    { s with
        queue := queue
        journal := journalRemoveByPfx s.journal pathPfx
        needsPersist := true }
  | .gameInstalled path gameName => onEventEnqueue s path gameName .newInstall now epoch
  | .gameModified path gameName => onEventEnqueue s path gameName .reconcile now epoch
where
  /-- The shared install/modify tail of `on_event` (scheduler/mod.rs:99). -/
  onEventEnqueue (s : Sched) (path : Str) (gameName : Option Str) (kind : JobKind)
      (now epoch : Nat) : Sched :=
    let pathStr := asciiLower path
    if s.config.excludedPaths.contains pathStr ∨ s.config.excludedPaths.contains path then
      s
    else if s.queue.any (fun j => j.gamePath = path ∧ pendStatus j.status) then
      s
    else
      let key := asciiLower path ++ [colonCode] ++ digitsOf epoch
      let job : AutomationJob :=
        { gamePath := path
          gameName := gameName
          kind := kind
          status := .pending
          idempotencyKey := key
          queuedAt := epoch
          startedAt := none
          error := none }
      let s := enqueueJob s job
      let entry : JournalEntry :=
        { gamePath := path
          gameName := gameName
          eventKind :=
            match kind with
            | .newInstall => .newInstall
            | .reconcile => .reconcile
            | .opportunistic => .opportunistic
          idempotencyKey := key
          queuedAt := epoch }
      let s := { s with journal := journalInsert s.journal entry, needsPersist := true }
      if s.state = .waitingForEvents then
        { s with state := .waitingForSettle, settleStarted := some now }
      else s

/-- `AutoScheduler::next_pending_job` (scheduler/mod.rs:392). -/
def nextPendingJob (s : Sched) : Option AutomationJob :=
  let isReady := fun (j : AutomationJob) => j.status = .pending ∨ j.status = .waitingForIdle
  match s.queue.find? (fun j => isReady j ∧ j.kind = .reconcile) with
  | some job => some job
  | none =>
    match s.queue.find? (fun j => isReady j ∧ j.kind = .newInstall) with
    | some job => some job
    | none => s.queue.find? (fun j => isReady j)

/-- `AutoScheduler::has_pending_jobs` (scheduler/mod.rs:410). -/
def hasPendingJobs (s : Sched) : Bool :=
  s.queue.any (fun j => pendStatus j.status)

/-- `AutoScheduler::has_active_job` (scheduler/mod.rs:419). -/
def hasActiveJob (s : Sched) : Bool :=
  s.queue.any (fun j => j.status = .compressing)

/-- The `retain` loop of `prune_finished` (scheduler/mod.rs:443): drop the
first `n` finished jobs, keep the rest. -/
def dropFinished : Nat → List AutomationJob → List AutomationJob
  | 0, l => l
  | _ + 1, [] => []
  | n + 1, j :: l =>
    if finishedStatus j.status then dropFinished n l else j :: dropFinished (n + 1) l

/-- The queue transformation of `prune_finished` (scheduler/mod.rs:426). -/
def pruneQueue (queue : List AutomationJob) : List AutomationJob :=
  if (queue.filter (fun j => finishedStatus j.status)).length ≤ MAX_FINISHED_JOBS then queue
  else
    dropFinished ((queue.filter (fun j => finishedStatus j.status)).length - MAX_FINISHED_JOBS)
      queue

/-- `AutoScheduler::prune_finished` (scheduler/mod.rs:426). -/
def pruneFinished (s : Sched) : Sched :=
  { s with queue := pruneQueue s.queue }

/-- `AutoScheduler::tick` (scheduler/mod.rs:165). -/
def tick (s : Sched) (isIdle : Bool) (now : Nat) : Sched × Option SchedAction :=
  if s.needsPersist then
    ({ s with needsPersist := false }, some .persist)
  else
    match s.state with
    | .waitingForEvents => (s, none)
    | .waitingForSettle =>
      match s.settleStarted with
      | some start =>
        if s.config.cooldown ≤ now - start then
          ({ s with
              state := .waitingForIdle
              settleStarted := none
              queue := s.queue.map (fun j =>
                if j.status = .pending then { j with status := .waitingForIdle } else j) },
            none)
        else (s, none)
      | none => ({ s with state := .waitingForIdle }, none)
    | .waitingForIdle =>
      (if isIdle then { s with state := .safetyCheck } else s, none)
    | .safetyCheck =>
      match nextPendingJob s with
      | some job =>
        let job := { job with status := .compressing, startedAt := some now }
        let queue := updateFirst (fun j => j.idempotencyKey = job.idempotencyKey)
          (fun j => { j with status := .compressing, startedAt := some now }) s.queue
        ({ s with state := .compressing, queue := queue }, some (.compress job))
      | none => ({ s with state := .waitingForEvents }, none)
    | .compressing =>
      (if isIdle then s else { s with state := .paused }, none)
    | .paused =>
      (if isIdle then { s with state := .compressing } else s, none)
    | .backoff =>
      match s.backoffUntil with
      | some deadline =>
        if deadline ≤ now then
          ({ s with backoffUntil := none, state := .waitingForIdle }, none)
        else (s, none)
      | none => ({ s with state := .waitingForIdle }, none)

/-- `AutoScheduler::job_completed` (scheduler/mod.rs:250). -/
def jobCompleted (s : Sched) (key : Str) : Sched :=
  let s := { s with
    queue := updateFirst (fun j => j.idempotencyKey = key)
      (fun j => { j with status := .completed }) s.queue
    journal := journalRemove s.journal key
    consecutiveFailures := 0
    needsPersist := true }
  let s := pruneFinished s
  if hasPendingJobs s then { s with state := .waitingForIdle }
  else { s with state := .waitingForEvents }

/-- `2u32.saturating_pow k`: the power saturates at `u32::MAX`. -/
def satPow2 (k : Nat) : Nat := min (2 ^ k) (2 ^ 32 - 1)

/-- `AutoScheduler::job_failed` (scheduler/mod.rs:271). -/
def jobFailed (s : Sched) (key : Str) (error : Str) (now : Nat) : Sched :=
  let s := { s with
    queue := updateFirst (fun j => j.idempotencyKey = key)
      (fun j => { j with status := .failed, error := some error }) s.queue
    journal := journalRemove s.journal key
    consecutiveFailures := s.consecutiveFailures + 1
    needsPersist := true }
  let s := pruneFinished s
  let backoff := INITIAL_BACKOFF * satPow2 (s.consecutiveFailures - 1)
  let capped := min backoff MAX_BACKOFF
  let s := { s with backoffUntil := some (now + capped) }
  if hasPendingJobs s then { s with state := .backoff }
  else { s with state := .waitingForEvents }

/-- `AutoScheduler::job_skipped` (scheduler/mod.rs:298). -/
def jobSkipped (s : Sched) (key : Str) (reason : Str) : Sched :=
  let s := { s with
    queue := updateFirst (fun j => j.idempotencyKey = key)
      (fun j => { j with status := .skipped, error := some reason }) s.queue
    journal := journalRemove s.journal key
    needsPersist := true }
  let s := pruneFinished s
  if hasPendingJobs s then { s with state := .waitingForIdle }
  else { s with state := .waitingForEvents }

/-- `AutoScheduler::pause` (scheduler/mod.rs:319). -/
def schedPause (s : Sched) : Sched :=
  if ¬ s.state = .paused then { s with state := .paused } else s

/-- `AutoScheduler::resume` (scheduler/mod.rs:326). -/
def schedResume (s : Sched) : Sched :=
  if s.state = .paused then
    if hasPendingJobs s ∨ hasActiveJob s then { s with state := .waitingForIdle }
    else { s with state := .waitingForEvents }
  else s

/-- `AutoScheduler::update_config` (scheduler/mod.rs:367). -/
def updateConfig (s : Sched) (config : SchedConfig) : Sched :=
  { s with config := config }

/-- `AutoScheduler::pending_queue_len` (scheduler/mod.rs:345). -/
def pendingQueueLen (s : Sched) : Nat :=
  (s.queue.filter (fun j => pendStatus j.status)).length

/-- The job built from a journal entry inside `restore_or_new`
(scheduler/mod.rs:56): status `Pending`, kind mapped from the entry. -/
def rehydrateEntry (entry : JournalEntry) : AutomationJob :=
  { gamePath := entry.gamePath
    gameName := entry.gameName
    kind :=
      match entry.eventKind with
      | .newInstall => .newInstall
      | .reconcile => .reconcile
      | .opportunistic => .opportunistic
    status := .pending
    idempotencyKey := entry.idempotencyKey
    queuedAt := entry.queuedAt
    startedAt := none
    error := none }

/-- The per-entry rehydration loop of `restore_or_new` (scheduler/mod.rs:55):
enqueue every snapshot entry in order. -/
def rehydrateFold (s : Sched) : List JournalEntry → Sched
  | [] => s
  | entry :: rest => rehydrateFold (enqueueJob s (rehydrateEntry entry)) rest

/-- `AutoScheduler::restore_or_new` (scheduler/mod.rs:49): load the journal
(merging `disk` into the writer's in-memory list `mem`), rehydrate every
entry in the resulting snapshot as a `Pending` job, and move to
`WaitingForIdle` when the queue is non-empty. -/
def restoreOrNew (config : SchedConfig) (mem disk : List JournalEntry) : Sched :=
  let s := Sched.new config
  let loaded := journalLoad mem disk
  let s := { s with journal := loaded.1 }
  if 0 < loaded.2 then
    let s := rehydrateFold s loaded.1
    if ¬ s.queue = [] then { s with state := .waitingForIdle } else s
  else s

/-! ## Scheduler interaction traces -/

/-- One external interaction with the scheduler on its owning thread: a
watcher event, a tick, an outcome hook, a pause/resume, or a config
update. -/
inductive SchedOp
  | ev (event : WatchEvent) (now epoch : Nat)
  | tk (isIdle : Bool) (now : Nat)
  | completed (key : Str)
  | failed (key : Str) (error : Str) (now : Nat)
  | skip (key : Str) (reason : Str)
  | pause
  | resume
  | cfg (config : SchedConfig)
deriving DecidableEq, Repr

/-- Apply one interaction to the scheduler state. -/
def applyOp (s : Sched) : SchedOp → Sched
  | .ev event now epoch => onEvent s event now epoch
  | .tk isIdle now => (tick s isIdle now).1
  | .completed key => jobCompleted s key
  | .failed key error now => jobFailed s key error now
  | .skip key reason => jobSkipped s key reason
  | .pause => schedPause s
  | .resume => schedResume s
  | .cfg config => updateConfig s config

/-- Run a whole interaction trace. -/
def runSched (s : Sched) : List SchedOp → Sched
  | [] => s
  | op :: rest => runSched (applyOp s op) rest

/-- Idempotency keys are pairwise distinct. -/
def keyUnique (journal : List JournalEntry) : Prop :=
  journal.Pairwise (fun a b => ¬ a.idempotencyKey = b.idempotencyKey)

/-- No two distinct pending-class jobs target the same `game_path`. -/
def pendPathUnique (queue : List AutomationJob) : Prop :=
  queue.Pairwise
    (fun a b => ¬ (pendStatus a.status ∧ pendStatus b.status ∧ a.gamePath = b.gamePath))

/-- Substring test, written from the specification's words for the exclusion
filter: "case-insensitive substring match against configured
`excluded_paths`".  Used only to compare the specified behaviour against the
embedded `on_event`. -/
def listHasSub : Str → Str → Bool
  | [], needle => needle.isEmpty
  | c :: t, needle => strStarts (c :: t) needle || listHasSub t needle

/-- Case-insensitive substring match, per the specification's words. -/
def subMatchCI (needle hay : Str) : Bool :=
  listHasSub (asciiLower hay) (asciiLower needle)

/-- Concrete scheduler in `Backoff` with persistence pending, for the C9
witness. -/
def persistPendingSched : Sched :=
  { Sched.new ⟨300, [], []⟩ with state := SchedState.backoff, needsPersist := true }

/-- Concrete pending job for the C10 witness. -/
def jobA : AutomationJob :=
  ⟨[97], none, .newInstall, .pending, [97, 58, 48], 0, none, none⟩

/-- Scheduler whose queue is full with 64 copies of `jobA`, for the C10
witness. -/
def fullSched : Sched :=
  { Sched.new ⟨300, [], []⟩ with queue := List.replicate 64 jobA }

/-- Concrete journal entry for the C10 witness. -/
def entryA : JournalEntry :=
  ⟨[97], none, .newInstall, [97, 58, 48], 0⟩

/-- Concrete journal entries for the C5 witness. -/
def entryB : JournalEntry :=
  ⟨[98], none, .newInstall, [98, 58, 50], 2⟩

/-- Second concrete journal entry for the C5 witness. -/
def entryC : JournalEntry :=
  ⟨[99], some [99], .reconcile, [99, 58, 51], 3⟩

/-! ## Event coalescer (watcher/coalescer.rs) -/

/-- `WatchEventKind` (coalescer.rs:12). -/
inductive PendKind
  | installed
  | uninstalled
  | modified
deriving DecidableEq, Repr

/-- `PendingEvent` (coalescer.rs:19). -/
structure PendingEvent where
  path : Str
  kind : PendKind
  gameName : Option Str
  lastSeen : Nat
deriving DecidableEq, Repr

/-- `EventCoalescer` (coalescer.rs:29); the `HashMap` keyed by path is
modelled as a list of entries with pairwise distinct paths. -/
structure Coalescer where
  pending : List PendingEvent
  cooldown : Nat
deriving DecidableEq, Repr

/-- `EventCoalescer::new` (coalescer.rs:35). -/
def Coalescer.new (cooldown : Nat) : Coalescer :=
  { pending := [], cooldown := cooldown }

/-- `EventCoalescer::ingest` (coalescer.rs:43): occupied entries get
`last_seen` reset and `kind` overwritten (and the name kept unless a new
one is supplied); vacant paths are inserted. -/
def Coalescer.ingest (c : Coalescer) (now : Nat) (path : Str) (kind : PendKind)
    (gameName : Option Str) : Coalescer :=
  if c.pending.any (fun e => e.path = path) then
    let upd := fun (e : PendingEvent) =>
      { e with
          lastSeen := now
          kind := kind
          gameName := if gameName.isSome then gameName else e.gameName }
    { c with pending := updateFirst (fun e => e.path = path) upd c.pending }
  else
    { c with pending := c.pending ++ [⟨path, kind, gameName, now⟩] }

/-- Settledness test of `drain_settled` (coalescer.rs:71):
`now.duration_since(last_seen) >= cooldown` with saturating subtraction. -/
def settledAt (cooldown now : Nat) (e : PendingEvent) : Bool :=
  cooldown ≤ now - e.lastSeen

/-- Conversion of a settled `PendingEvent` into a `WatchEvent`
(coalescer.rs:73). -/
def toWatchEvent (e : PendingEvent) : WatchEvent :=
  match e.kind with
  | .installed => .gameInstalled e.path e.gameName
  | .uninstalled => .gameUninstalled e.path e.gameName
  | .modified => .gameModified e.path e.gameName

/-- Path of a `WatchEvent` (`WatchEvent::path`, watcher/mod.rs:45). -/
def WatchEvent.path : WatchEvent → Str
  | .gameInstalled p _ => p
  | .gameUninstalled p _ => p
  | .gameModified p _ => p

/-- `EventCoalescer::drain_settled` (coalescer.rs:65): remove and return the
entries whose cooldown elapsed. -/
def Coalescer.drainSettled (c : Coalescer) (now : Nat) :
    Coalescer × List WatchEvent :=
  ({ c with pending := c.pending.filter (fun e => ¬ settledAt c.cooldown now e) },
    (c.pending.filter (settledAt c.cooldown now)).map toWatchEvent)

/-- One client interaction with the coalescer: a raw event ingested at `now`
(the path is supplied by the surrounding trace), or a drain at `now`. -/
inductive CoalOp
  | ing (now : Nat) (kind : PendKind) (gameName : Option Str)
  | drain (now : Nat)
deriving DecidableEq, Repr

/-- Clock value at which an operation happens. -/
def CoalOp.time : CoalOp → Nat
  | .ing now _ _ => now
  | .drain now => now

/-- Run a sequence of coalescer operations, all ingests targeting the single
game-folder path `p`; collects each drained event tagged with its drain
time. -/
def runCoal (p : Str) (c : Coalescer) : List CoalOp → Coalescer × List (Nat × WatchEvent)
  | [] => (c, [])
  | .ing now kind name :: rest =>
    runCoal p (c.ingest now p kind name) rest
  | .drain now :: rest =>
    let step := c.drainSettled now
    let tail := runCoal p step.1 rest
    (tail.1, step.2.map (fun ev => (now, ev)) ++ tail.2)

/-- Times in the operation list are nondecreasing and bounded below by `b`
(`Instant::now()` is monotone). -/
def MonoSince (b : Nat) : List CoalOp → Prop
  | [] => True
  | op :: rest => b ≤ op.time ∧ MonoSince op.time rest

/-! ## Progress reporter (progress/reporter.rs) -/

/-- One 100 ms wakeup of `reporter_loop` (reporter.rs:104): the values the
loop reads from the stop/done flags and the four atomic counters at that
iteration.  The speed window and `estimated_time_remaining` are
floating-point display data that never feed back into control flow or the
emit key, and are not modelled. -/
structure ReporterTick where
  stop : Bool
  done : Bool
  processed : Nat
  total : Nat
  bytesOriginal : Nat
  bytesCompressed : Nat
deriving DecidableEq, Repr

/-- `CompressionProgress` snapshot fields relevant to control flow
(progress/tracker.rs). -/
structure Snapshot where
  filesTotal : Nat
  filesProcessed : Nat
  bytesOriginal : Nat
  bytesCompressed : Nat
  bytesSaved : Nat
  isComplete : Bool
deriving DecidableEq, Repr

/-- Display total normalization (reporter.rs:115): once done, pin the total
to `max(total, processed)`; otherwise bump it to `processed + 1` when the
raw processed counter ran ahead of the raw total. -/
def normTotal (doneNow : Bool) (processedRaw totalRaw : Nat) : Nat :=
  if doneNow then max totalRaw processedRaw
  else if totalRaw < processedRaw then processedRaw + 1
  else totalRaw

/-- Mutable locals of `reporter_loop` that feed its emit decision:
`last_emitted` and `baseline_pending` (reporter.rs:101,102). -/
structure ReporterState where
  lastEmitted : Option (Nat × Nat × Nat × Nat × Bool)
  baselinePending : Bool
deriving DecidableEq, Repr

/-- Initial reporter state for `ProgressReporter::new` as used by
`compress_folder_with_progress` (engine.rs:174): no baseline snapshot. -/
def reporterInit : ReporterState := { lastEmitted := none, baselinePending := false }

/-- `reporter_loop` (reporter.rs:104): consume one tick per wakeup, emit
snapshots by the emit-key rule, and stop after a completion snapshot or a
stop request.  Returns the list of snapshots sent on the channel, in send
order. -/
def reporterRun (st : ReporterState) : List ReporterTick → List Snapshot
  | [] => []
  | t :: rest =>
    let stopping := t.stop
    let doneNow := t.done
    let filesTotal := normTotal doneNow t.processed t.total
    let filesProcessed := min t.processed filesTotal
    if st.baselinePending then
      if filesTotal = 0 ∧ ¬ doneNow ∧ ¬ stopping then
        reporterRun st rest
      else
        let baselineComplete := doneNow ∧ filesTotal = 0
        let snap : Snapshot :=
          { filesTotal := filesTotal
            filesProcessed := 0
            bytesOriginal := 0
            bytesCompressed := 0
            bytesSaved := 0
            isComplete := baselineComplete }
        if baselineComplete then [snap]
        else
          snap :: reporterRun
            { lastEmitted := some (0, filesTotal, 0, 0, baselineComplete)
              baselinePending := false } rest
    else
      let isComplete := doneNow
      let key := (filesProcessed, filesTotal, t.bytesOriginal, t.bytesCompressed, isComplete)
      let shouldEmit := ¬ st.lastEmitted = some key ∨ stopping
      if shouldEmit then
        let snap : Snapshot :=
          { filesTotal := filesTotal
            filesProcessed := filesProcessed
            bytesOriginal := t.bytesOriginal
            bytesCompressed := t.bytesCompressed
            bytesSaved := t.bytesOriginal - t.bytesCompressed
            isComplete := isComplete }
        if isComplete ∨ stopping then [snap]
        else snap :: reporterRun { st with lastEmitted := some key } rest
      else
        if isComplete ∨ stopping then []
        else reporterRun st rest

/-! ## Compression engine per-file processing (compression/engine/wof_ops.rs) -/

/-- `MIN_COMPRESSIBLE_SIZE` (engine.rs:72). -/
def MIN_COMPRESSIBLE_SIZE : Nat := 4096

/-- Result of `wof::wof_compress_file` for one file: the two `Ok` variants of
`CompressFileResult`, or the `CompressionError` variants the per-file match
distinguishes (wof_ops.rs:97). -/
inductive WofOutcome
  | compressed
  | notBeneficial
  | errLocked
  | errPermission
  | errDiskFull
  | errOther (code : Nat)
deriving DecidableEq, Repr

/-- Whole-operation result errors (`CompressionError` as it escapes
`compress_impl_from_manifest`). -/
inductive CompErr
  | cancelled
  | diskFull
  | other (code : Nat)
deriving DecidableEq, Repr

/-- One `ManifestFile` together with the filesystem responses its processing
observes: the logical size hint, the `fs::metadata` fallback, the physical
size before compression, the hard-link count, the `wof_compress_file`
outcome, and the physical size re-queried after a successful compression.
`Option` models the fallible OS calls. -/
structure MFile where
  sizeHint : Option Nat
  metaSize : Option Nat
  physBefore : Option Nat
  links : Option Nat
  outcome : WofOutcome
  physAfter : Option Nat
deriving DecidableEq, Repr

/-- Logical file size: `logical_size_hint.unwrap_or_else(metadata ... unwrap_or_default())`
(wof_ops.rs:60). -/
def fileSize (f : MFile) : Nat := f.sizeHint.getD (f.metaSize.getD 0)

/-- `has_multiple_links` (wof_ops.rs:239): `is_some_and(|count| count > 1)`. -/
def hasMultipleLinks (f : MFile) : Bool :=
  match f.links with
  | some n => 1 < n
  | none => false

/-- The engine's shared counters plus the per-operation `skipped` counter and
`disk_full` latch (wof_ops.rs:44,45). -/
structure EngState where
  filesProcessed : Nat
  filesTotal : Nat
  bytesOriginal : Nat
  bytesCompressed : Nat
  skipped : Nat
  diskFull : Bool
deriving DecidableEq, Repr

/-- The per-file closure of `compress_impl_from_manifest` (wof_ops.rs:51-128),
sequentialized: `cancelled` is the cancellation-token read for this file. -/
def procFile (cancelled : Bool) (st : EngState) (f : MFile) : Except CompErr EngState :=
  if cancelled then .error .cancelled
  else if st.diskFull then .error .diskFull
  else
    let size := fileSize f
    if size = 0 then
      .ok { st with skipped := st.skipped + 1, filesProcessed := st.filesProcessed + 1 }
    else if size < MIN_COMPRESSIBLE_SIZE then
      .ok { st with skipped := st.skipped + 1, filesProcessed := st.filesProcessed + 1 }
    else
      let phys := f.physBefore.getD size
      if phys < size then
        .ok { st with
          bytesOriginal := st.bytesOriginal + size
          bytesCompressed := st.bytesCompressed + phys
          filesProcessed := st.filesProcessed + 1 }
      else if hasMultipleLinks f then
        .ok { st with
          bytesOriginal := st.bytesOriginal + size
          bytesCompressed := st.bytesCompressed + size
          skipped := st.skipped + 1
          filesProcessed := st.filesProcessed + 1 }
      else
        match f.outcome with
        | .compressed =>
          .ok { st with
            bytesOriginal := st.bytesOriginal + size
            bytesCompressed := st.bytesCompressed + f.physAfter.getD size
            filesProcessed := st.filesProcessed + 1 }
        | .notBeneficial =>
          .ok { st with
            bytesOriginal := st.bytesOriginal + size
            bytesCompressed := st.bytesCompressed + size
            skipped := st.skipped + 1
            filesProcessed := st.filesProcessed + 1 }
        | .errDiskFull => .error .diskFull
        | .errLocked =>
          .ok { st with
            bytesOriginal := st.bytesOriginal + size
            bytesCompressed := st.bytesCompressed + size
            skipped := st.skipped + 1
            filesProcessed := st.filesProcessed + 1 }
        | .errPermission =>
          .ok { st with
            bytesOriginal := st.bytesOriginal + size
            bytesCompressed := st.bytesCompressed + size
            skipped := st.skipped + 1
            filesProcessed := st.filesProcessed + 1 }
        | .errOther code => .error (.other code)

/-- The `try_for_each` over the manifest (wof_ops.rs:51): first error aborts
the whole operation. -/
def runFiles (cancelled : Bool) (st : EngState) : List MFile → Except CompErr EngState
  | [] => .ok st
  | f :: rest =>
    match procFile cancelled st f with
    | .ok st => runFiles cancelled st rest
    | .error e => .error e

/-- `compress_impl_from_manifest` (wof_ops.rs:39): store `files.len()` into
`files_total`, then process every file; counters start from the
`reset_counters` state of `compress_folder`. -/
def compressFromManifest (cancelled : Bool) (files : List MFile) : Except CompErr EngState :=
  runFiles cancelled
    { filesProcessed := 0
      filesTotal := files.length
      bytesOriginal := 0
      bytesCompressed := 0
      skipped := 0
      diskFull := false }
    files

/-! ## C3: exactly-once completion -/

/-- A reporter state that has not yet emitted a completion snapshot and is
past its baseline. -/
def okState (st : ReporterState) : Prop :=
  st.baselinePending = false
  ∧ ∀ k, st.lastEmitted = some k → k.2.2.2.2 = false

/-- The non-baseline snapshot assembled by `reporter_loop` for tick `t`
(reporter.rs:191). -/
def mainSnap (t : ReporterTick) (doneNow : Bool) : Snapshot :=
  { filesTotal := normTotal doneNow t.processed t.total
    filesProcessed := min t.processed (normTotal doneNow t.processed t.total)
    bytesOriginal := t.bytesOriginal
    bytesCompressed := t.bytesCompressed
    bytesSaved := t.bytesOriginal - t.bytesCompressed
    isComplete := doneNow }

/-! ## C4: per-file outcome handling in the compression engine -/

/-- State change shared by the `NotBeneficial`, `LockedFile` and
`PermissionDenied` arms: logical size added to both byte totals, the file
counted as skipped and as processed. -/
def skipCounted (st : EngState) (size : Nat) : EngState :=
  { st with
      bytesOriginal := st.bytesOriginal + size
      bytesCompressed := st.bytesCompressed + size
      skipped := st.skipped + 1
      filesProcessed := st.filesProcessed + 1 }

/-- The initial counter state of `compress_impl_from_manifest` for a given
manifest. -/
def engInit (files : List MFile) : EngState :=
  { filesProcessed := 0
    filesTotal := files.length
    bytesOriginal := 0
    bytesCompressed := 0
    skipped := 0
    diskFull := false }

/-- File whose compression attempt reports `NotBeneficial`, for the C4
witness (logical size 5000, physical equal, one hard link). -/
def fileNB : MFile := ⟨some 5000, none, some 5000, some 1, .notBeneficial, none⟩

/-- File whose compression attempt reports `DiskFull`, for the C4 witness. -/
def fileDF : MFile := ⟨some 6000, none, some 6000, none, .errDiskFull, none⟩

/-- Kind of a settled `WatchEvent`, for relating drained events back to raw
event kinds. -/
def eventKindOf : WatchEvent → PendKind
  | .gameInstalled _ _ => .installed
  | .gameUninstalled _ _ => .uninstalled
  | .gameModified _ _ => .modified

/-- Single-path well-formedness of the pending map: at most one entry, it
is for path `p`, and it was last seen no later than `b`. -/
def pathInv (p : Str) (b : Nat) (c : Coalescer) : Prop :=
  (∀ e ∈ c.pending, e.path = p ∧ e.lastSeen ≤ b) ∧ c.pending.length ≤ 1

/-- Lower bound from which the next settled event can fire. -/
def lbOf (b : Nat) (c : Coalescer) : Nat :=
  match c.pending with
  | [] => b
  | e :: _ => e.lastSeen

/-- A burst of raw events on the single path `p`, applied through
`EventCoalescer::ingest`. -/
def applyIngests (p : Str) (c : Coalescer) : List (Nat × PendKind × Option Str) → Coalescer
  | [] => c
  | x :: rest => applyIngests p (c.ingest x.1 p x.2.1 x.2.2) rest

/-- Trace for the C7 witness: a burst on path "p" = [112], two drains, a
fresh install event, and a final drain, with cooldown 300. -/
def opsW : List CoalOp :=
  [ .ing 0 .installed none
  , .ing 100 .modified none
  , .drain 200
  , .drain 400
  , .ing 450 .installed none
  , .drain 800 ]

/-- Concrete coalescer holding one settled entry, for the C7 witness. -/
def coalW : Coalescer := ⟨[⟨[112], .modified, none, 10⟩], 300⟩

/-- The queue/journal well-formedness the scheduler maintains: journal keys
are unique, and at most one pending-class job exists per game path. -/
def SchedInv (s : Sched) : Prop :=
  keyUnique s.journal ∧ pendPathUnique s.queue

/-! ## Helper lemmas -/

/-- The saturating `u32` power inside the backoff computation never changes
the capped backoff: both sides saturate at `MAX_BACKOFF` long before the
`u32` cap can matter. -/
lemma min_backoff_satPow2 (k : Nat) :
    min (INITIAL_BACKOFF * satPow2 k) MAX_BACKOFF
      = min (INITIAL_BACKOFF * 2 ^ k) MAX_BACKOFF := by
  unfold satPow2 INITIAL_BACKOFF MAX_BACKOFF
  rcases le_or_lt (2 ^ k) (2 ^ 32 - 1) with h | h
  · rw [min_eq_left h]
  · have h1 : (2 : Nat) ^ 32 - 1 ≤ 2 ^ k := le_of_lt h
    rw [min_eq_right h1]
    have hA : 30 * 60 ≤ 60 * (2 ^ 32 - 1) := by norm_num
    have hB : 30 * 60 ≤ 60 * 2 ^ k :=
      le_trans hA (Nat.mul_le_mul_left 60 h1)
    rw [min_eq_right hA, min_eq_right hB]

/-! ## C6: exponential backoff with cap -/

/-- C6: after the n-th consecutive `job_failed`, `backoff_until` becomes
`now + min(INITIAL_BACKOFF · 2^(n−1), MAX_BACKOFF)`; the backoff therefore
never exceeds `MAX_BACKOFF`, and the first backoff equals (hence is at
least) `INITIAL_BACKOFF`. -/
theorem jobFailed_backoff_formula (s : Sched) (key error : Str) (now : Nat) :
    (jobFailed s key error now).consecutiveFailures = s.consecutiveFailures + 1
    ∧ (jobFailed s key error now).backoffUntil
        = some (now + min (INITIAL_BACKOFF * 2 ^ ((s.consecutiveFailures + 1) - 1)) MAX_BACKOFF)
    ∧ min (INITIAL_BACKOFF * 2 ^ ((s.consecutiveFailures + 1) - 1)) MAX_BACKOFF ≤ MAX_BACKOFF
    ∧ (s.consecutiveFailures = 0 →
        (jobFailed s key error now).backoffUntil = some (now + INITIAL_BACKOFF)) := by
  have hfail : ∀ t : Sched, (pruneFinished t).consecutiveFailures = t.consecutiveFailures :=
    fun _ => rfl
  refine ⟨?_, ?_, min_le_right _ _, ?_⟩
  · simp only [jobFailed]
    split <;> simp [hfail]
  · simp only [jobFailed]
    split <;> simp [hfail, min_backoff_satPow2]
  · intro h0
    have h1 : min (INITIAL_BACKOFF * 2 ^ s.consecutiveFailures) MAX_BACKOFF
        = INITIAL_BACKOFF := by
      rw [h0]
      simp [INITIAL_BACKOFF, MAX_BACKOFF]
    simp only [jobFailed]
    split <;> simp [hfail, min_backoff_satPow2, h1]

/-- Witness for C6 at a concrete scheduler with no prior failures. -/
theorem jobFailed_backoff_formula_witness :
    (jobFailed (Sched.new ⟨300, [], []⟩) [107] [101] 100).backoffUntil
      = some (100 + INITIAL_BACKOFF) :=
  (jobFailed_backoff_formula (Sched.new ⟨300, [], []⟩) [107] [101] 100).2.2.2 rfl

/-! ## C9: Persist takes priority and is a pure flag-clear -/

/-- C9: when persistence is pending, `tick` returns `Persist` and clears the
flag, leaving state, queue, backoff deadline, failure counter and settle
timer untouched, for either value of `is_idle`. -/
theorem tick_persist_priority (s : Sched) (isIdle : Bool) (now : Nat)
    (h : s.needsPersist = true) :
    tick s isIdle now = ({ s with needsPersist := false }, some SchedAction.persist) := by
  unfold tick
  rw [h]
  simp

/-- Witness for C9 on a concrete scheduler with the flag set, under both
idle inputs. -/
theorem tick_persist_priority_witness :
    (tick persistPendingSched true 5).2 = some SchedAction.persist
    ∧ (tick persistPendingSched false 9).1.state = SchedState.backoff
    ∧ (tick persistPendingSched false 9).1.needsPersist = false := by
  refine ⟨?_, ?_, ?_⟩
  · rw [tick_persist_priority _ true 5 rfl]
  · rw [tick_persist_priority _ false 9 rfl]
    rfl
  · rw [tick_persist_priority _ false 9 rfl]

/-! ## C2: exclusion filter is an exact match, not a substring match -/

/-- C2 counterexample: with `excluded_paths = {"game"}`, the event path
"cgame" matches by case-insensitive substring match, yet `on_event`
enqueues a job and inserts a journal entry.  (Codes: "game" =
[103,97,109,101], "cgame" = [99,103,97,109,101].) -/
theorem onEvent_substring_not_excluded :
    subMatchCI [103, 97, 109, 101] [99, 103, 97, 109, 101] = true
    ∧ (onEvent (Sched.new ⟨300, [[103, 97, 109, 101]], []⟩)
        (.gameInstalled [99, 103, 97, 109, 101] none) 0 7).queue.length = 1
    ∧ (onEvent (Sched.new ⟨300, [[103, 97, 109, 101]], []⟩)
        (.gameInstalled [99, 103, 97, 109, 101] none) 0 7).journal.length = 1 := by
  decide

/-- C2 amended: `on_event` filters by exact membership of the lowercased (or
raw) path string in `excluded_paths`; for such paths it enqueues no job,
inserts no journal entry, and leaves the scheduler entirely unchanged. -/
theorem onEvent_excluded_exact (s : Sched) (path : Str) (gameName : Option Str)
    (now epoch : Nat)
    (h : s.config.excludedPaths.contains (asciiLower path) = true
        ∨ s.config.excludedPaths.contains path = true) :
    onEvent s (.gameInstalled path gameName) now epoch = s
    ∧ onEvent s (.gameModified path gameName) now epoch = s := by
  have h' : asciiLower path ∈ s.config.excludedPaths ∨ path ∈ s.config.excludedPaths := by
    rcases h with h | h
    · exact Or.inl (by simpa using h)
    · exact Or.inr (by simpa using h)
  constructor <;>
  · show onEvent.onEventEnqueue s path gameName _ now epoch = s
    simp only [onEvent.onEventEnqueue]
    rcases h' with h' | h' <;> simp [h']

/-- Witness for C2's amended filter at a concrete excluded path. -/
theorem onEvent_excluded_exact_witness :
    onEvent (Sched.new ⟨300, [[103, 97, 109, 101]], []⟩)
        (.gameInstalled [71, 97, 109, 101] none) 3 9
      = Sched.new ⟨300, [[103, 97, 109, 101]], []⟩ :=
  (onEvent_excluded_exact (Sched.new ⟨300, [[103, 97, 109, 101]], []⟩)
    [71, 97, 109, 101] none 3 9 (Or.inl (by decide))).1

/-! ## Enqueue and restore lemmas -/

lemma enqueueJob_journal (s : Sched) (job : AutomationJob) :
    (enqueueJob s job).journal = s.journal := rfl

lemma enqueueJob_state (s : Sched) (job : AutomationJob) :
    (enqueueJob s job).state = s.state := rfl

lemma enqueueJob_queue_ne_nil (s : Sched) (job : AutomationJob) :
    ¬ (enqueueJob s job).queue = [] := by
  simp only [enqueueJob]
  simp

lemma enqueueJob_mem (s : Sched) (job x : AutomationJob)
    (hx : x ∈ (enqueueJob s job).queue) : x ∈ s.queue ∨ x = job := by
  simp only [enqueueJob] at hx
  rcases List.mem_append.1 hx with h | h
  · split at h
    · split at h
      · exact Or.inl ((List.eraseIdx_sublist _ _).mem h)
      · exact Or.inl h
    · exact Or.inl h
  · exact Or.inr (by simpa using h)

lemma enqueueJob_small (s : Sched) (job : AutomationJob)
    (h : s.queue.length < MAX_QUEUE_SIZE) :
    (enqueueJob s job).queue = s.queue ++ [job] := by
  simp only [enqueueJob]
  rw [if_neg (Nat.not_le.mpr h)]

lemma rehydrateFold_journal (entries : List JournalEntry) (s : Sched) :
    (rehydrateFold s entries).journal = s.journal := by
  induction entries generalizing s with
  | nil => rfl
  | cons e rest ih =>
    rw [rehydrateFold, ih, enqueueJob_journal]

lemma rehydrateFold_state (entries : List JournalEntry) (s : Sched) :
    (rehydrateFold s entries).state = s.state := by
  induction entries generalizing s with
  | nil => rfl
  | cons e rest ih =>
    rw [rehydrateFold, ih, enqueueJob_state]

lemma rehydrateFold_ne_nil (entries : List JournalEntry) (s : Sched)
    (h : ¬ entries = []) : ¬ (rehydrateFold s entries).queue = [] := by
  induction entries generalizing s with
  | nil => exact absurd rfl h
  | cons e rest ih =>
    rcases rest with _ | ⟨f, rest⟩
    · exact enqueueJob_queue_ne_nil s (rehydrateEntry e)
    · exact ih _ (by simp)

lemma rehydrateFold_small (entries : List JournalEntry) (s : Sched)
    (h : s.queue.length + entries.length ≤ MAX_QUEUE_SIZE) :
    (rehydrateFold s entries).queue = s.queue ++ entries.map rehydrateEntry := by
  induction entries generalizing s with
  | nil => simp [rehydrateFold]
  | cons e rest ih =>
    have hlt : s.queue.length < MAX_QUEUE_SIZE := by
      simp at h
      omega
    have hq := enqueueJob_small s (rehydrateEntry e) hlt
    have hlen : (enqueueJob s (rehydrateEntry e)).queue.length + rest.length
        ≤ MAX_QUEUE_SIZE := by
      rw [hq]
      simp at h ⊢
      omega
    rw [rehydrateFold, ih _ hlen, hq]
    simp

lemma rehydrateFold_all_pending (entries : List JournalEntry) (s : Sched)
    (hs : ∀ j ∈ s.queue, j.status = JobStatus.pending) :
    ∀ j ∈ (rehydrateFold s entries).queue, j.status = JobStatus.pending := by
  induction entries generalizing s with
  | nil => exact hs
  | cons e rest ih =>
    rw [rehydrateFold]
    refine ih _ ?_
    intro j hj
    rcases enqueueJob_mem _ _ _ hj with hj | hj
    · exact hs j hj
    · rw [hj]; rfl

lemma journalLoad_sup (disk : List JournalEntry) (mem : List JournalEntry) :
    ∀ x ∈ mem, x ∈ (journalLoad mem disk).1 := by
  induction disk generalizing mem with
  | nil => intro x hx; exact hx
  | cons e rest ih =>
    intro x hx
    rw [journalLoad]
    split
    · exact ih mem x hx
    · exact ih (mem ++ [e]) x (List.mem_append.2 (Or.inl hx))

lemma journalLoad_hasKeys (disk : List JournalEntry) (mem : List JournalEntry) :
    ∀ e ∈ disk,
      (journalLoad mem disk).1.any (fun x => x.idempotencyKey = e.idempotencyKey) = true := by
  induction disk generalizing mem with
  | nil => intro e he; cases he
  | cons f rest ih =>
    intro e he
    rw [journalLoad]
    rcases List.mem_cons.1 he with he | he
    · subst he
      split
      · rename_i hin
        rw [List.any_eq_true] at hin ⊢
        obtain ⟨x, hx, hkey⟩ := hin
        exact ⟨x, journalLoad_sup rest mem x hx, hkey⟩
      · rw [List.any_eq_true]
        exact ⟨e, journalLoad_sup rest (mem ++ [e]) e (by simp), by simp⟩
    · split
      · exact ih mem e he
      · dsimp only
        exact ih (mem ++ [f]) e he

lemma journalLoad_absorb (disk : List JournalEntry) (mem : List JournalEntry)
    (h : ∀ e ∈ disk, mem.any (fun x => x.idempotencyKey = e.idempotencyKey) = true) :
    journalLoad mem disk = (mem, 0) := by
  induction disk with
  | nil => rfl
  | cons e rest ih =>
    rw [journalLoad]
    rw [if_pos (h e (by simp))]
    exact ih (fun f hf => h f (by simp [hf]))

lemma journalLoad_empty_ne_nil (disk : List JournalEntry) (h : ¬ disk = []) :
    ¬ (journalLoad [] disk).1 = [] ∧ 0 < (journalLoad [] disk).2 := by
  rcases disk with _ | ⟨e, rest⟩
  · exact absurd rfl h
  · rw [journalLoad]
    rw [if_neg (by simp)]
    dsimp only
    constructor
    · intro hcon
      have hmem := journalLoad_sup rest [e] e (by simp)
      rw [show ([] : List JournalEntry) ++ [e] = [e] from rfl] at hcon
      rw [hcon] at hmem
      cases hmem
    · simp

lemma restore_queue_small (cfg : SchedConfig) (disk : List JournalEntry)
    (hsmall : (journalLoad [] disk).1.length ≤ MAX_QUEUE_SIZE) :
    (restoreOrNew cfg [] disk).queue = ((journalLoad [] disk).1).map rehydrateEntry := by
  by_cases hd : disk = []
  · subst hd
    rfl
  · obtain ⟨hne, hpos⟩ := journalLoad_empty_ne_nil disk hd
    simp only [restoreOrNew]
    rw [if_pos hpos]
    have hfold := rehydrateFold_small (journalLoad [] disk).1
      { Sched.new cfg with journal := (journalLoad [] disk).1 }
      (by simpa [Sched.new] using hsmall)
    split
    · simpa [Sched.new] using hfold
    · simpa [Sched.new] using hfold

/-! ## C10: queue eviction leaves the journal intact -/

/-- C10: when the queue already holds `MAX_QUEUE_SIZE` entries,
`enqueue_job` drops the first non-`Compressing` entry from the queue while
the journal list is untouched, so an evicted pending job's journal entry is
still there for `restore_or_new` to rehydrate as a `Pending` job. -/
theorem enqueue_eviction_journal_frame (s : Sched) (job : AutomationJob) (idx : Nat)
    (h1 : MAX_QUEUE_SIZE ≤ s.queue.length)
    (h2 : s.queue.findIdx? (fun j => ¬ j.status = JobStatus.compressing) = some idx)
    (cfg : SchedConfig) (disk : List JournalEntry)
    (hsmall : (journalLoad [] disk).1.length ≤ MAX_QUEUE_SIZE) :
    (enqueueJob s job).queue = s.queue.eraseIdx idx ++ [job]
    ∧ (enqueueJob s job).journal = s.journal
    ∧ (restoreOrNew cfg [] disk).queue = ((journalLoad [] disk).1).map rehydrateEntry
    ∧ ((restoreOrNew cfg [] disk).queue.all
        (fun j => j.status = JobStatus.pending)) = true := by
  have hqueue := restore_queue_small cfg disk hsmall
  refine ⟨?_, rfl, hqueue, ?_⟩
  · simp only [enqueueJob]
    rw [if_pos h1, h2]
  · rw [hqueue]
    simp [rehydrateEntry]

/-- Witness for C10: eviction from the full queue leaves the journal alone,
and a one-entry journal restores to one `Pending` job. -/
theorem enqueue_eviction_journal_frame_witness :
    (enqueueJob fullSched jobA).journal = fullSched.journal
    ∧ (enqueueJob fullSched jobA).queue
        = (List.replicate 64 jobA).eraseIdx 0 ++ [jobA]
    ∧ (restoreOrNew ⟨300, [], []⟩ [] [entryA]).queue
        = [rehydrateEntry entryA] := by
  have h := enqueue_eviction_journal_frame fullSched jobA 0 (by decide) (by decide)
    ⟨300, [], []⟩ [entryA] (by decide)
  exact ⟨h.2.1, h.1, h.2.2.1⟩

/-! ## C5: restore from journal -/

/-- C5: `restore_or_new` on a fresh journal writer loads the disk entries,
leaves the scheduler's journal equal to the loaded snapshot, makes every
restored queue job `Pending`, lands in `WaitingForIdle` exactly when
something was restored, counts one pending job per loaded entry (when the
snapshot fits the queue bound), and a second load of the same unchanged
journal adds zero entries and leaves the pending set unchanged. -/
theorem restoreOrNew_spec (cfg : SchedConfig) (disk : List JournalEntry) :
    ((restoreOrNew cfg [] disk).queue.all (fun j => j.status = JobStatus.pending)) = true
    ∧ (restoreOrNew cfg [] disk).state
        = (if disk = [] then SchedState.waitingForEvents else SchedState.waitingForIdle)
    ∧ (restoreOrNew cfg [] disk).journal = (journalLoad [] disk).1
    ∧ ((journalLoad [] disk).1.length ≤ MAX_QUEUE_SIZE →
        pendingQueueLen (restoreOrNew cfg [] disk) = (journalLoad [] disk).1.length)
    ∧ journalLoad (journalLoad [] disk).1 disk = ((journalLoad [] disk).1, 0)
    ∧ (restoreOrNew cfg (journalLoad [] disk).1 disk).journal = (journalLoad [] disk).1
    ∧ (restoreOrNew cfg (journalLoad [] disk).1 disk).queue = [] := by
  have habs : journalLoad (journalLoad [] disk).1 disk = ((journalLoad [] disk).1, 0) :=
    journalLoad_absorb disk (journalLoad [] disk).1 (journalLoad_hasKeys disk [])
  refine ⟨?_, ?_, ?_, ?_, habs, ?_, ?_⟩
  · by_cases hd : disk = []
    · subst hd
      rfl
    · obtain ⟨hne, hpos⟩ := journalLoad_empty_ne_nil disk hd
      simp only [restoreOrNew]
      rw [if_pos hpos]
      have hall := rehydrateFold_all_pending (journalLoad [] disk).1
        { Sched.new cfg with journal := (journalLoad [] disk).1 }
        (by intro j hj; cases hj)
      rw [List.all_eq_true]
      split
      · intro j hj
        simp only [decide_eq_true_eq]
        exact hall j (by simpa using hj)
      · intro j hj
        simp only [decide_eq_true_eq]
        exact hall j (by simpa using hj)
  · by_cases hd : disk = []
    · subst hd
      rfl
    · obtain ⟨hne, hpos⟩ := journalLoad_empty_ne_nil disk hd
      rw [if_neg hd]
      simp only [restoreOrNew]
      rw [if_pos hpos]
      have hqne := rehydrateFold_ne_nil (journalLoad [] disk).1
        { Sched.new cfg with journal := (journalLoad [] disk).1 } hne
      rw [if_pos hqne]
  · by_cases hd : disk = []
    · subst hd
      rfl
    · obtain ⟨hne, hpos⟩ := journalLoad_empty_ne_nil disk hd
      simp only [restoreOrNew]
      rw [if_pos hpos]
      have hj := rehydrateFold_journal (journalLoad [] disk).1
        { Sched.new cfg with journal := (journalLoad [] disk).1 }
      split
      · simpa using hj
      · simpa using hj
  · intro hsmall
    have hq := restore_queue_small cfg disk hsmall
    unfold pendingQueueLen
    rw [hq]
    rw [List.filter_eq_self.2 ?_]
    · simp
    · intro j hj
      rcases List.mem_map.1 hj with ⟨e, _, he⟩
      rw [← he]
      simp [rehydrateEntry, pendStatus]
  · simp only [restoreOrNew]
    rw [habs]
    simp
  · simp only [restoreOrNew]
    rw [habs]
    simp [Sched.new]

/-- Witness for C5: restoring two entries yields two pending jobs and
`WaitingForIdle`; restoring again from the same journal adds nothing. -/
theorem restoreOrNew_spec_witness :
    pendingQueueLen (restoreOrNew ⟨300, [], []⟩ [] [entryB, entryC]) = 2
    ∧ (restoreOrNew ⟨300, [], []⟩ [] [entryB, entryC]).state = SchedState.waitingForIdle
    ∧ journalLoad (journalLoad [] [entryB, entryC]).1 [entryB, entryC]
        = ([entryB, entryC], 0) := by
  have h := restoreOrNew_spec ⟨300, [], []⟩ [entryB, entryC]
  refine ⟨?_, ?_, ?_⟩
  · have := h.2.2.2.1 (by decide)
    simpa using this
  · have := h.2.1
    simpa using this
  · have := h.2.2.2.2.1
    simpa using this

/-! ## C1: idempotency-key occurrence -/

/-- C1 counterexample: a job for path "g" enqueued at epoch 5 is completed,
and a second event for the same path arrives within the same epoch second;
the queue then holds two jobs with the identical idempotency key
"g:5" = [103,58,53], refuting at-most-once occurrence in the queue. -/
theorem queue_key_duplicated :
    1 < ((runSched (Sched.new ⟨300, [], []⟩)
        [ .ev (.gameInstalled [103] none) 0 5
        , .completed [103, 58, 53]
        , .ev (.gameModified [103] none) 1 5 ]).queue.filter
          (fun j => j.idempotencyKey = [103, 58, 53])).length := by
  decide

/-! ## C8: snapshots never show processed above total -/

/-- C8: every snapshot the reporter emits satisfies
`files_processed ≤ files_total`; the normalization pins the total to
`max(total, processed)` once done, and bumps it to `processed + 1` when the
raw processed counter ran ahead of the raw total. -/
theorem reporter_snapshots_bounded (st : ReporterState) (ticks : List ReporterTick) :
    (∀ snap ∈ reporterRun st ticks, snap.filesProcessed ≤ snap.filesTotal)
    ∧ (∀ p tot : Nat, normTotal true p tot = max tot p)
    ∧ (∀ p tot : Nat, tot < p → normTotal false p tot = p + 1) := by
  refine ⟨?_, ?_, ?_⟩
  · induction ticks generalizing st with
    | nil => intro snap h; cases h
    | cons t rest ih =>
      intro snap hsnap
      simp only [reporterRun] at hsnap
      split at hsnap
      · split at hsnap
        · exact ih _ snap hsnap
        · split at hsnap
          · simp only [List.mem_singleton] at hsnap
            subst hsnap
            exact Nat.zero_le _
          · rcases List.mem_cons.1 hsnap with h | h
            · subst h
              exact Nat.zero_le _
            · exact ih _ snap h
      · split at hsnap
        · split at hsnap
          · simp only [List.mem_singleton] at hsnap
            subst hsnap
            exact min_le_right _ _
          · rcases List.mem_cons.1 hsnap with h | h
            · subst h
              exact min_le_right _ _
            · exact ih _ snap h
        · split at hsnap
          · cases hsnap
          · exact ih _ snap hsnap
  · intro p tot
    simp [normTotal]
  · intro p tot h
    simp [normTotal, h]

/-- Witness for C8 on a tick whose raw processed counter (5) ran ahead of
the raw total (3). -/
theorem reporter_snapshots_bounded_witness :
    ((reporterRun reporterInit [⟨false, false, 5, 3, 10, 6⟩]).all
      (fun s => decide (s.filesProcessed ≤ s.filesTotal))) = true
    ∧ normTotal false 5 3 = 6 := by
  constructor
  · rw [List.all_eq_true]
    intro s hs
    exact decide_eq_true
      ((reporter_snapshots_bounded reporterInit [⟨false, false, 5, 3, 10, 6⟩]).1 s hs)
  · exact (reporter_snapshots_bounded reporterInit []).2.2 5 3 (by decide)

lemma okState_mk (a b c d : Nat) :
    okState ⟨some (a, b, c, d, false), false⟩ := by
  refine ⟨rfl, ?_⟩
  intro k hk
  injection hk with h
  rw [← h]

lemma reporterRun_quiet_prefix (pre : List ReporterTick) (rest : List ReporterTick)
    (st : ReporterState)
    (hpre : ∀ t ∈ pre, t.done = false ∧ t.stop = false) (hst : okState st) :
    ∃ pfx st', reporterRun st (pre ++ rest) = pfx ++ reporterRun st' rest
      ∧ (∀ s ∈ pfx, s.isComplete = false) ∧ okState st' := by
  induction pre generalizing st with
  | nil => exact ⟨[], st, rfl, fun s h => (List.not_mem_nil s h).elim, hst⟩
  | cons t pre ih =>
    obtain ⟨hdone, hstop⟩ := hpre t (by simp)
    have hrest : ∀ u ∈ pre, u.done = false ∧ u.stop = false :=
      fun u hu => hpre u (by simp [hu])
    rw [List.cons_append]
    simp only [reporterRun, hdone, hstop, hst.1]
    simp only [Bool.false_eq_true, if_false, not_false_eq_true, or_false, false_or, or_self]
    split
    · obtain ⟨pfx, st', heq, hpfx, hok⟩ := ih _ hrest (okState_mk
        (min t.processed (normTotal false t.processed t.total))
        (normTotal false t.processed t.total) t.bytesOriginal t.bytesCompressed)
      refine ⟨mainSnap t false :: pfx, st', ?_, ?_, hok⟩
      · rw [List.cons_append, heq]
        rfl
      · intro s hs
        rcases List.mem_cons.1 hs with h | h
        · rw [h]
          rfl
        · exact hpfx s h
    · exact ih st hrest hst

lemma reporterRun_done_head (st : ReporterState) (t : ReporterTick)
    (rest : List ReporterTick)
    (hst : okState st) (hdone : t.done = true) (hstop : t.stop = false) :
    reporterRun st (t :: rest) = [mainSnap t true] := by
  have hne : ¬ st.lastEmitted = some (min t.processed (normTotal true t.processed t.total),
      normTotal true t.processed t.total, t.bytesOriginal, t.bytesCompressed, true) := by
    intro hcon
    have hk := hst.2 _ hcon
    simp at hk
  simp only [reporterRun, hdone, hstop, hst.1]
  simp only [Bool.false_eq_true, if_false, or_false, true_or, or_true, if_true]
  rw [if_pos hne]
  simp [mainSnap]

lemma reporterRun_no_done_no_complete (ticks : List ReporterTick) (st : ReporterState)
    (h : ∀ t ∈ ticks, t.done = false) :
    ∀ s ∈ reporterRun st ticks, s.isComplete = false := by
  induction ticks generalizing st with
  | nil => intro s hs; cases hs
  | cons t rest ih =>
    intro s hs
    have hdone := h t (by simp)
    have hr : ∀ u ∈ rest, u.done = false := fun u hu => h u (by simp [hu])
    simp only [reporterRun, hdone] at hs
    split at hs
    · split at hs
      · exact ih _ hr _ hs
      · split at hs
        · rename_i hcomp
          simp at hcomp
        · rcases List.mem_cons.1 hs with hmem | hmem
          · rw [hmem]
            simp
          · exact ih _ hr _ hmem
    · split at hs
      · split at hs
        · simp only [List.mem_singleton] at hs
          rw [hs]
        · rcases List.mem_cons.1 hs with hmem | hmem
          · rw [hmem]
          · exact ih _ hr _ hmem
      · split at hs
        · cases hs
        · exact ih _ hr _ hs

/-- C3: with the reporter started as `compress_folder_with_progress` starts
it, a run of quiet ticks followed by ticks after the engine's done signal
sends exactly one `is_complete = true` snapshot, that snapshot is the last
message, and without a done signal no snapshot is ever complete (even when
the processed counter equals the total). -/
theorem reporter_exactly_once_complete (pre post : List ReporterTick)
    (hpre : ∀ t ∈ pre, t.done = false ∧ t.stop = false)
    (hpost : ∀ t ∈ post, t.done = true ∧ t.stop = false)
    (hne : ¬ post = []) :
    ((reporterRun reporterInit (pre ++ post)).filter (fun s => s.isComplete)).length = 1
    ∧ (∃ snap, (reporterRun reporterInit (pre ++ post)).getLast? = some snap
        ∧ snap.isComplete = true)
    ∧ (∀ ticks : List ReporterTick, (∀ t ∈ ticks, t.done = false) →
        ∀ s ∈ reporterRun reporterInit ticks, s.isComplete = false) := by
  obtain ⟨pfx, st', heq, hpfx, hok⟩ := reporterRun_quiet_prefix pre post reporterInit hpre
    ⟨rfl, by intro k hk; cases hk⟩
  rcases post with _ | ⟨t, rest⟩
  · exact absurd rfl hne
  obtain ⟨ht1, ht2⟩ := hpost t (by simp)
  have hdone := reporterRun_done_head st' t rest hok ht1 ht2
  rw [heq, hdone]
  have hfilterPfx : pfx.filter (fun s => s.isComplete) = [] := by
    rw [List.filter_eq_nil_iff]
    intro a ha
    rw [hpfx a ha]
    simp
  refine ⟨?_, ⟨mainSnap t true, ?_, rfl⟩, ?_⟩
  · rw [List.filter_append, hfilterPfx]
    simp [mainSnap]
  · exact List.getLast?_concat pfx
  · intro ticks h
    exact reporterRun_no_done_no_complete ticks reporterInit h

/-- Witness for C3: one quiet tick with `processed = total = 3` (no
completion inferred), then one done tick: exactly one completion snapshot. -/
theorem reporter_exactly_once_complete_witness :
    ((reporterRun reporterInit
        [⟨false, false, 3, 3, 9, 9⟩, ⟨false, true, 3, 3, 9, 9⟩]).filter
      (fun s => s.isComplete)).length = 1 :=
  (reporter_exactly_once_complete [⟨false, false, 3, 3, 9, 9⟩]
    [⟨false, true, 3, 3, 9, 9⟩] (by decide) (by decide) (by decide)).1

lemma runFiles_append (cancelled : Bool) (pre rest : List MFile) (st0 st1 : EngState)
    (h : runFiles cancelled st0 pre = .ok st1) :
    runFiles cancelled st0 (pre ++ rest) = runFiles cancelled st1 rest := by
  induction pre generalizing st0 with
  | nil =>
    rw [runFiles] at h
    injection h with h2
    subst h2
    rfl
  | cons f fs ih =>
    rw [List.cons_append]
    rw [runFiles] at h ⊢
    cases hp : procFile cancelled st0 f with
    | ok st' =>
      rw [hp] at h
      exact ih _ h
    | error e =>
      rw [hp] at h
      cases h

lemma compressFromManifest_eq (cancelled : Bool) (files : List MFile) :
    compressFromManifest cancelled files = runFiles cancelled (engInit files) files := rfl

/-- C4: for a file that passes the size, already-compressed and hard-link
checks, `NotBeneficial` adds the logical size to both totals and counts a
skip; `LockedFile`/`PermissionDenied` do the same and the operation
continues; `DiskFull` aborts the whole operation with `DiskFull`; any other
error aborts the whole operation with that error. -/
theorem compress_per_file_outcomes (st : EngState) (f : MFile)
    (hsz : MIN_COMPRESSIBLE_SIZE ≤ fileSize f)
    (hphys : fileSize f ≤ f.physBefore.getD (fileSize f))
    (hlinks : hasMultipleLinks f = false)
    (hdf : st.diskFull = false)
    (pre post : List MFile) (st1 : EngState) (e : CompErr)
    (hpre : runFiles false (engInit (pre ++ f :: post)) pre = .ok st1) :
    (f.outcome = .notBeneficial →
      procFile false st f = .ok (skipCounted st (fileSize f)))
    ∧ ((f.outcome = .errLocked ∨ f.outcome = .errPermission) →
      procFile false st f = .ok (skipCounted st (fileSize f)))
    ∧ (f.outcome = .errDiskFull → procFile false st f = .error CompErr.diskFull)
    ∧ (∀ code, f.outcome = .errOther code → procFile false st f = .error (CompErr.other code))
    ∧ (procFile false st1 f = .error e →
        compressFromManifest false (pre ++ f :: post) = .error e)
    ∧ (∀ st2, procFile false st1 f = .ok st2 →
        compressFromManifest false (pre ++ f :: post) = runFiles false st2 post) := by
  have hstep : ∀ t : EngState, t.diskFull = false → procFile false t f
      = (match f.outcome with
        | .compressed => .ok { t with
            bytesOriginal := t.bytesOriginal + fileSize f
            bytesCompressed := t.bytesCompressed + f.physAfter.getD (fileSize f)
            filesProcessed := t.filesProcessed + 1 }
        | .notBeneficial => .ok (skipCounted t (fileSize f))
        | .errDiskFull => .error CompErr.diskFull
        | .errLocked => .ok (skipCounted t (fileSize f))
        | .errPermission => .ok (skipCounted t (fileSize f))
        | .errOther code => .error (CompErr.other code)) := by
    intro t htdf
    have h0 : ¬ fileSize f = 0 := by
      intro hcon
      rw [hcon] at hsz
      exact absurd hsz (by decide)
    have hlt : ¬ fileSize f < MIN_COMPRESSIBLE_SIZE := Nat.not_lt.mpr hsz
    have hp : ¬ f.physBefore.getD (fileSize f) < fileSize f := Nat.not_lt.mpr hphys
    simp only [procFile, htdf, h0, hlt, hp, hlinks]
    cases hout : f.outcome <;> simp [skipCounted, htdf]
  refine ⟨?_, ?_, ?_, ?_, ?_, ?_⟩
  · intro ho
    rw [hstep st hdf, ho]
  · intro ho
    rcases ho with ho | ho <;> rw [hstep st hdf, ho]
  · intro ho
    rw [hstep st hdf, ho]
  · intro code ho
    rw [hstep st hdf, ho]
  · intro herr
    rw [compressFromManifest_eq]
    rw [runFiles_append false pre (f :: post) _ st1 hpre]
    rw [runFiles, herr]
  · intro st2 hok
    rw [compressFromManifest_eq]
    rw [runFiles_append false pre (f :: post) _ st1 hpre]
    rw [runFiles, hok]

/-- Witness for C4: `NotBeneficial` skips-and-counts, and a later `DiskFull`
file aborts the whole manifest run with `DiskFull`. -/
theorem compress_per_file_outcomes_witness :
    procFile false (engInit [fileNB, fileDF]) fileNB
        = .ok (skipCounted (engInit [fileNB, fileDF]) 5000)
    ∧ compressFromManifest false [fileNB, fileDF] = .error CompErr.diskFull := by
  constructor
  · have h2 := compress_per_file_outcomes (engInit [fileNB, fileDF]) fileNB
      (by decide) (by decide) (by decide) (by decide) [] [] (engInit [fileNB])
      CompErr.diskFull rfl
    exact h2.1 rfl
  · have h := compress_per_file_outcomes (engInit [fileNB, fileDF]) fileDF
      (by decide) (by decide) (by decide) (by decide) [fileNB] []
      (skipCounted (engInit [fileNB, fileDF]) 5000) CompErr.diskFull rfl
    exact h.2.2.2.2.1 rfl

/-! ## C7: coalescer settles one event per cooldown window -/

/-- Path carried by the `WatchEvent` built from a pending entry equals the
entry's path. -/
lemma toWatchEvent_path (e : PendingEvent) : (toWatchEvent e).path = e.path := by
  cases h : e.kind <;> simp [toWatchEvent, h, WatchEvent.path]

lemma eventKindOf_toWatchEvent (e : PendingEvent) : eventKindOf (toWatchEvent e) = e.kind := by
  cases h : e.kind <;> simp [toWatchEvent, h, eventKindOf]

/-- Gating of `drain_settled`: an event is returned only from a pending
entry whose cooldown has elapsed. -/
lemma drain_gating (c : Coalescer) (now : Nat) (ev : WatchEvent)
    (hev : ev ∈ (c.drainSettled now).2) :
    ∃ e, e ∈ c.pending ∧ c.cooldown ≤ now - e.lastSeen ∧ ev = toWatchEvent e := by
  simp only [Coalescer.drainSettled, List.mem_map] at hev
  obtain ⟨e, he, hmap⟩ := hev
  rw [List.mem_filter] at he
  refine ⟨e, he.1, ?_, hmap.symm⟩
  have := he.2
  simpa [settledAt] using this

lemma ingest_cooldown (c : Coalescer) (now : Nat) (path : Str) (kind : PendKind)
    (name : Option Str) : (c.ingest now path kind name).cooldown = c.cooldown := by
  simp only [Coalescer.ingest]
  split <;> rfl

lemma drain_cooldown (c : Coalescer) (now : Nat) :
    ((c.drainSettled now).1).cooldown = c.cooldown := rfl

lemma runCoal_spaced (p : Str) (ops : List CoalOp) (c : Coalescer) (b : Nat)
    (hmono : MonoSince b ops) (hinv : pathInv p b c) :
    (∀ o ∈ (runCoal p c ops).2, (o.2).path = p ∧ lbOf b c + c.cooldown ≤ o.1)
    ∧ (runCoal p c ops).2.Pairwise (fun x y => x.1 + c.cooldown ≤ y.1) := by
  induction ops generalizing c b with
  | nil =>
    constructor
    · intro o ho
      cases ho
    · exact List.Pairwise.nil
  | cons op rest ih =>
    obtain ⟨hb, hrest⟩ := hmono
    have hlb : lbOf b c ≤ b := by
      rcases hq : c.pending with _ | ⟨e, tl⟩
      · simp [lbOf, hq]
      · have := (hinv.1 e (by rw [hq]; simp)).2
        simp [lbOf, hq, this]
    cases op with
    | ing now kind name =>
      have hbn : b ≤ now := hb
      have hstep : (c.ingest now p kind name).pending.length = 1
          ∧ ∀ e ∈ (c.ingest now p kind name).pending, e.path = p ∧ e.lastSeen = now := by
        rcases hq : c.pending with _ | ⟨e, tl⟩
        · constructor
          · simp [Coalescer.ingest, hq]
          · intro x hx
            simp [Coalescer.ingest, hq] at hx
            rw [hx]
            exact ⟨rfl, rfl⟩
        · have htl : tl = [] := by
            have h2 := hinv.2
            rw [hq] at h2
            simp at h2
            exact h2
          subst htl
          have hep : e.path = p := (hinv.1 e (by rw [hq]; simp)).1
          constructor
          · simp [Coalescer.ingest, hq, hep, updateFirst]
          · intro x hx
            simp [Coalescer.ingest, hq, hep, updateFirst] at hx
            rw [hx]
            exact ⟨rfl, rfl⟩
      have hinv2 : pathInv p now (c.ingest now p kind name) := by
        refine ⟨fun e he => ?_, by rw [hstep.1]⟩
        obtain ⟨h1, h2⟩ := hstep.2 e he
        exact ⟨h1, le_of_eq h2⟩
      have hlb2 : now ≤ lbOf now (c.ingest now p kind name) := by
        rcases hq : (c.ingest now p kind name).pending with _ | ⟨e, tl⟩
        · have hlen := hstep.1
          rw [hq] at hlen
          simp at hlen
        · have := (hstep.2 e (by rw [hq]; simp)).2
          simp [lbOf, hq, this]
      rw [runCoal]
      have hcool := ingest_cooldown c now p kind name
      obtain ⟨hmem, hpw⟩ := ih _ now hrest hinv2
      constructor
      · intro o ho
        obtain ⟨h1, h2⟩ := hmem o ho
        refine ⟨h1, ?_⟩
        rw [hcool] at h2
        have h3 : lbOf b c ≤ lbOf now (c.ingest now p kind name) :=
          le_trans (le_trans hlb hbn) hlb2
        omega
      · have hpw2 := hpw
        rw [hcool] at hpw2
        exact hpw2
    | drain now =>
      have hbn : b ≤ now := hb
      rcases hq : c.pending with _ | ⟨e, tl⟩
      · have hev : (c.drainSettled now).2 = [] := by
          simp [Coalescer.drainSettled, hq]
        have hkeep : (c.drainSettled now).1.pending = [] := by
          simp [Coalescer.drainSettled, hq]
        have hinv2 : pathInv p now (c.drainSettled now).1 := by
          rw [pathInv, hkeep]
          simp
        obtain ⟨hmem, hpw⟩ := ih _ now hrest hinv2
        rw [runCoal, hev]
        simp only [List.map_nil, List.nil_append]
        constructor
        · intro o ho
          obtain ⟨h1, h2⟩ := hmem o ho
          refine ⟨h1, ?_⟩
          rw [drain_cooldown] at h2
          have hl2 : lbOf now (c.drainSettled now).1 = now := by
            simp [lbOf, hkeep]
          rw [hl2] at h2
          have h3 : lbOf b c ≤ now := le_trans hlb hbn
          omega
        · have hpw2 := hpw
          rw [drain_cooldown] at hpw2
          exact hpw2
      · have htl : tl = [] := by
          have h2 := hinv.2
          rw [hq] at h2
          simp at h2
          exact h2
        subst htl
        obtain ⟨hep, hel⟩ := hinv.1 e (by rw [hq]; simp)
        have hlbq : lbOf b c = e.lastSeen := by simp [lbOf, hq]
        by_cases hset : settledAt c.cooldown now e = true
        · have hev : (c.drainSettled now).2 = [toWatchEvent e] := by
            simp [Coalescer.drainSettled, hq, hset]
          have hkeep : (c.drainSettled now).1.pending = [] := by
            simp [Coalescer.drainSettled, hq, hset]
          have hinv2 : pathInv p now (c.drainSettled now).1 := by
            rw [pathInv, hkeep]
            simp
          obtain ⟨hmem, hpw⟩ := ih _ now hrest hinv2
          have hl2 : lbOf now (c.drainSettled now).1 = now := by
            simp [lbOf, hkeep]
          have hfire : e.lastSeen + c.cooldown ≤ now := by
            have hs : c.cooldown ≤ now - e.lastSeen := by simpa [settledAt] using hset
            have h3 : e.lastSeen ≤ now := le_trans hel hbn
            omega
          rw [runCoal, hev]
          simp only [List.map_cons, List.map_nil, List.singleton_append]
          constructor
          · intro o ho
            rcases List.mem_cons.1 ho with h | h
            · rw [h]
              constructor
              · show (toWatchEvent e).path = p
                rw [toWatchEvent_path e]
                exact hep
              · show lbOf b c + c.cooldown ≤ now
                rw [hlbq]
                exact hfire
            · obtain ⟨h1, h2⟩ := hmem o h
              rw [drain_cooldown, hl2] at h2
              refine ⟨h1, ?_⟩
              rw [hlbq]
              omega
          · refine List.Pairwise.cons ?_ ?_
            · intro o ho
              obtain ⟨h1, h2⟩ := hmem o ho
              rw [drain_cooldown, hl2] at h2
              show now + c.cooldown ≤ o.1
              omega
            · have hpw2 := hpw
              rw [drain_cooldown] at hpw2
              exact hpw2
        · have hev : (c.drainSettled now).2 = [] := by
            simp [Coalescer.drainSettled, hq, hset]
          have hkeep : (c.drainSettled now).1.pending = [e] := by
            simp [Coalescer.drainSettled, hq, hset]
          have hinv2 : pathInv p now (c.drainSettled now).1 := by
            rw [pathInv, hkeep]
            refine ⟨?_, by simp⟩
            intro x hx
            simp at hx
            rw [hx]
            exact ⟨hep, le_trans hel hbn⟩
          obtain ⟨hmem, hpw⟩ := ih _ now hrest hinv2
          rw [runCoal, hev]
          simp only [List.map_nil, List.nil_append]
          constructor
          · intro o ho
            obtain ⟨h1, h2⟩ := hmem o ho
            rw [drain_cooldown] at h2
            have hl2 : lbOf now (c.drainSettled now).1 = e.lastSeen := by
              simp [lbOf, hkeep]
            rw [hl2] at h2
            refine ⟨h1, ?_⟩
            rw [hlbq]
            omega
          · have hpw2 := hpw
            rw [drain_cooldown] at hpw2
            exact hpw2

lemma applyIngests_cooldown (p : Str) (l : List (Nat × PendKind × Option Str))
    (c : Coalescer) : (applyIngests p c l).cooldown = c.cooldown := by
  induction l generalizing c with
  | nil => rfl
  | cons y l ih =>
    rw [applyIngests, ih, ingest_cooldown]

lemma applyIngests_last (p : Str) (l : List (Nat × PendKind × Option Str))
    (x : Nat × PendKind × Option Str) (c : Coalescer)
    (hc : c.pending = [] ∨ ∃ e, c.pending = [e] ∧ e.path = p) :
    ∃ nm, (applyIngests p c (l ++ [x])).pending = [⟨p, x.2.1, nm, x.1⟩] := by
  induction l generalizing c with
  | nil =>
    rcases hc with hc | ⟨e, hc, hep⟩
    · exact ⟨x.2.2, by simp [applyIngests, Coalescer.ingest, hc]⟩
    · refine ⟨if x.2.2.isSome then x.2.2 else e.gameName, ?_⟩
      simp [applyIngests, Coalescer.ingest, hc, hep, updateFirst]
  | cons y l ih =>
    rw [List.cons_append, applyIngests]
    apply ih
    rcases hc with hc | ⟨e, hc, hep⟩
    · refine Or.inr ⟨⟨p, y.2.1, y.2.2, y.1⟩, ?_, rfl⟩
      simp [Coalescer.ingest, hc]
    · have hping : (c.ingest y.1 p y.2.1 y.2.2).pending
          = [⟨p, y.2.1, if y.2.2.isSome then y.2.2 else e.gameName, y.1⟩] := by
        simp [Coalescer.ingest, hc, hep, updateFirst]
      exact Or.inr ⟨_, hping, rfl⟩

lemma applyIngests_drain_kinds (p : Str) (cd : Nat)
    (ings : List (Nat × PendKind × Option Str))
    (x : Nat × PendKind × Option Str) (t : Nat) :
    (((applyIngests p (Coalescer.new cd) (ings ++ [x])).drainSettled t).2.map eventKindOf)
      = if cd ≤ t - x.1 then [x.2.1] else [] := by
  obtain ⟨nm, hp⟩ := applyIngests_last p ings x (Coalescer.new cd) (Or.inl rfl)
  have hcd : (applyIngests p (Coalescer.new cd) (ings ++ [x])).cooldown = cd :=
    applyIngests_cooldown p (ings ++ [x]) (Coalescer.new cd)
  by_cases h : cd ≤ t - x.1
  · simp [Coalescer.drainSettled, hp, hcd, settledAt, h, eventKindOf_toWatchEvent]
  · simp [Coalescer.drainSettled, hp, hcd, settledAt, h]

/-- C7: over any monotone single-path trace from an empty coalescer, the
drained events for that path are at least one cooldown apart (at most one
settled event per cooldown window); an event is returned only from a
pending entry whose `now − last_seen ≥ cooldown`; and after a burst of
ingests the drained event carries the kind of the most recent raw event. -/
theorem coalescer_settled_once_per_window (p : Str) (cd : Nat) (ops : List CoalOp)
    (hmono : MonoSince 0 ops)
    (c : Coalescer) (now : Nat) (ev : WatchEvent)
    (hev : ev ∈ (c.drainSettled now).2)
    (ings : List (Nat × PendKind × Option Str)) (x : Nat × PendKind × Option Str)
    (t : Nat) :
    (runCoal p (Coalescer.new cd) ops).2.Pairwise (fun a b => a.1 + cd ≤ b.1)
    ∧ (∀ o ∈ (runCoal p (Coalescer.new cd) ops).2, (o.2).path = p)
    ∧ (∃ e, e ∈ c.pending ∧ c.cooldown ≤ now - e.lastSeen ∧ ev = toWatchEvent e)
    ∧ (((applyIngests p (Coalescer.new cd) (ings ++ [x])).drainSettled t).2.map eventKindOf
        = if cd ≤ t - x.1 then [x.2.1] else []) := by
  have hinv : pathInv p 0 (Coalescer.new cd) := by
    constructor
    · intro e he
      cases he
    · simp [Coalescer.new]
  obtain ⟨hmem, hpw⟩ := runCoal_spaced p ops (Coalescer.new cd) 0 hmono hinv
  exact ⟨hpw, fun o ho => (hmem o ho).1, drain_gating c now ev hev,
    applyIngests_drain_kinds p cd ings x t⟩

/-- Witness for C7: the two drained events of the trace are a full cooldown
apart, and a burst `Installed` then `Modified` drains as `Modified`. -/
theorem coalescer_settled_once_per_window_witness :
    (runCoal [112] (Coalescer.new 300) opsW).2.Pairwise (fun a b => a.1 + 300 ≤ b.1)
    ∧ ((applyIngests [112] (Coalescer.new 300)
          ([(0, .installed, none)] ++ [(100, .modified, none)])).drainSettled 400).2.map
        eventKindOf = [PendKind.modified] := by
  have h := coalescer_settled_once_per_window [112] 300 opsW
    (by simp [MonoSince, CoalOp.time, opsW])
    coalW 310 (WatchEvent.gameModified [112] none) (by decide)
    [(0, .installed, none)] (100, .modified, none) 400
  exact ⟨h.1, (h.2.2.2).trans (by decide)⟩

lemma dropFinished_sublist (n : Nat) (l : List AutomationJob) :
    List.Sublist (dropFinished n l) l := by
  induction l generalizing n with
  | nil => cases n <;> simp [dropFinished]
  | cons j t ih =>
    cases n with
    | zero => simp [dropFinished]
    | succ m =>
      rw [dropFinished]
      split
      · exact List.Sublist.cons j (ih m)
      · exact List.Sublist.cons₂ j (ih (m + 1))

lemma pruneQueue_sublist (l : List AutomationJob) : List.Sublist (pruneQueue l) l := by
  rw [pruneQueue]
  split
  · exact List.Sublist.refl l
  · exact dropFinished_sublist _ l

lemma mem_updateFirst {α : Type} (p : α → Bool) (f : α → α) (l : List α) (y : α)
    (hy : y ∈ updateFirst p f l) : y ∈ l ∨ ∃ z ∈ l, y = f z := by
  induction l with
  | nil => cases hy
  | cons x t ih =>
    rw [updateFirst] at hy
    split at hy
    · rcases List.mem_cons.1 hy with h | h
      · exact Or.inr ⟨x, by simp, h⟩
      · exact Or.inl (by simp [h])
    · rcases List.mem_cons.1 hy with h | h
      · exact Or.inl (by simp [h])
      · rcases ih h with h2 | ⟨z, hz, hez⟩
        · exact Or.inl (by simp [h2])
        · exact Or.inr ⟨z, by simp [hz], hez⟩

lemma pendPathUnique_updateFirst (q : List AutomationJob) (p : AutomationJob → Bool)
    (f : AutomationJob → AutomationJob)
    (hf : ∀ j, pendStatus (f j).status = false)
    (h : pendPathUnique q) : pendPathUnique (updateFirst p f q) := by
  induction q with
  | nil => exact List.Pairwise.nil
  | cons x t ih =>
    rw [pendPathUnique] at h
    rw [updateFirst]
    split
    · refine List.Pairwise.cons ?_ (List.pairwise_cons.1 h).2
      intro y _ hcon
      have := hcon.1
      rw [hf x] at this
      cases this
    · refine List.Pairwise.cons ?_ (ih (List.pairwise_cons.1 h).2)
      intro y hy hcon
      rcases mem_updateFirst p f t y hy with h2 | ⟨z, hz, hez⟩
      · exact (List.pairwise_cons.1 h).1 y h2 hcon
      · have := hcon.2.1
        rw [hez, hf z] at this
        cases this

lemma enqueueJob_mem_left (s : Sched) (a : AutomationJob)
    (ha : a ∈ (if MAX_QUEUE_SIZE ≤ s.queue.length then
        match s.queue.findIdx? (fun j => ¬ j.status = .compressing) with
        | some idx => s.queue.eraseIdx idx
        | none => s.queue
      else s.queue)) : a ∈ s.queue := by
  split at ha
  · split at ha
    · exact (List.eraseIdx_sublist _ _).mem ha
    · exact ha
  · exact ha

lemma enqueueJob_pendPathUnique (s : Sched) (job : AutomationJob)
    (h : pendPathUnique s.queue)
    (hjob : ∀ a ∈ s.queue, ¬ (pendStatus a.status = true ∧ a.gamePath = job.gamePath)) :
    pendPathUnique (enqueueJob s job).queue := by
  simp only [enqueueJob]
  rw [pendPathUnique, List.pairwise_append]
  refine ⟨?_, List.pairwise_singleton _ _, ?_⟩
  · split
    · split
      · exact h.sublist (List.eraseIdx_sublist _ _)
      · exact h
    · exact h
  · intro a ha b hb
    rw [List.mem_singleton] at hb
    subst hb
    intro hcon
    exact hjob a (enqueueJob_mem_left s a ha) ⟨hcon.1, hcon.2.2⟩

lemma journalInsert_keyUnique (journal : List JournalEntry) (entry : JournalEntry)
    (h : keyUnique journal) : keyUnique (journalInsert journal entry) := by
  simp only [journalInsert]
  split
  · exact h
  · rename_i hnot
    rw [keyUnique, List.pairwise_append]
    refine ⟨h, List.pairwise_singleton _ _, ?_⟩
    intro a ha b hb
    rw [List.mem_singleton] at hb
    subst hb
    intro hcon
    apply hnot
    rw [List.any_eq_true]
    exact ⟨a, ha, by simp [hcon]⟩

lemma pendPathUnique_settle_map (q : List AutomationJob) (h : pendPathUnique q) :
    pendPathUnique (q.map (fun j =>
      if j.status = JobStatus.pending then { j with status := JobStatus.waitingForIdle }
      else j)) := by
  refine List.Pairwise.map _ ?_ h
  intro a b hab hcon
  apply hab
  have hpath : ∀ j : AutomationJob, ((fun j : AutomationJob =>
      if j.status = JobStatus.pending then { j with status := JobStatus.waitingForIdle }
      else j) j).gamePath = j.gamePath := by
    intro j
    by_cases hj : j.status = JobStatus.pending <;> simp [hj]
  have hpend : ∀ j : AutomationJob, pendStatus ((fun j : AutomationJob =>
      if j.status = JobStatus.pending then { j with status := JobStatus.waitingForIdle }
      else j) j).status = true → pendStatus j.status = true := by
    intro j
    by_cases hj : j.status = JobStatus.pending <;> simp [hj, pendStatus]
  obtain ⟨h1, h2, h3⟩ := hcon
  refine ⟨hpend a h1, hpend b h2, ?_⟩
  rw [← hpath a, ← hpath b]
  exact h3

lemma jobCompleted_inv (s : Sched) (key : Str) (h : SchedInv s) :
    SchedInv (jobCompleted s key) := by
  have hq : pendPathUnique (pruneQueue (updateFirst (fun j => j.idempotencyKey = key)
      (fun j => { j with status := JobStatus.completed }) s.queue)) :=
    (pendPathUnique_updateFirst s.queue _ _ (fun j => by simp [pendStatus]) h.2).sublist
      (pruneQueue_sublist _)
  have hj : keyUnique (journalRemove s.journal key) :=
    h.1.sublist (List.filter_sublist _)
  simp only [jobCompleted, pruneFinished]
  split
  · exact ⟨hj, hq⟩
  · exact ⟨hj, hq⟩

lemma jobFailed_inv (s : Sched) (key error : Str) (now : Nat) (h : SchedInv s) :
    SchedInv (jobFailed s key error now) := by
  have hq : pendPathUnique (pruneQueue (updateFirst (fun j => j.idempotencyKey = key)
      (fun j => { j with status := JobStatus.failed, error := some error }) s.queue)) :=
    (pendPathUnique_updateFirst s.queue _ _ (fun j => by simp [pendStatus]) h.2).sublist
      (pruneQueue_sublist _)
  have hj : keyUnique (journalRemove s.journal key) :=
    h.1.sublist (List.filter_sublist _)
  simp only [jobFailed, pruneFinished]
  split
  · exact ⟨hj, hq⟩
  · exact ⟨hj, hq⟩

lemma jobSkipped_inv (s : Sched) (key reason : Str) (h : SchedInv s) :
    SchedInv (jobSkipped s key reason) := by
  have hq : pendPathUnique (pruneQueue (updateFirst (fun j => j.idempotencyKey = key)
      (fun j => { j with status := JobStatus.skipped, error := some reason }) s.queue)) :=
    (pendPathUnique_updateFirst s.queue _ _ (fun j => by simp [pendStatus]) h.2).sublist
      (pruneQueue_sublist _)
  have hj : keyUnique (journalRemove s.journal key) :=
    h.1.sublist (List.filter_sublist _)
  simp only [jobSkipped, pruneFinished]
  split
  · exact ⟨hj, hq⟩
  · exact ⟨hj, hq⟩

lemma tick_inv (s : Sched) (isIdle : Bool) (now : Nat) (h : SchedInv s) :
    SchedInv (tick s isIdle now).1 := by
  simp only [tick]
  split
  · exact h
  · split
    · exact h
    · split
      · split
        · exact ⟨h.1, pendPathUnique_settle_map s.queue h.2⟩
        · exact h
      · exact h
    · split <;> exact h
    · split
      · exact ⟨h.1, pendPathUnique_updateFirst s.queue _ _
          (fun j => by simp [pendStatus]) h.2⟩
      · exact h
    · split <;> exact h
    · split <;> exact h
    · split
      · split
        · exact h
        · exact h
      · exact h

lemma onEventEnqueue_inv (s : Sched) (path : Str) (name : Option Str) (kind : JobKind)
    (now epoch : Nat) (h : SchedInv s) :
    SchedInv (onEvent.onEventEnqueue s path name kind now epoch) := by
  simp only [onEvent.onEventEnqueue]
  split
  · exact h
  · split
    · exact h
    · rename_i hexcl hdup
      have hjob : ∀ a ∈ s.queue, ¬ (pendStatus a.status = true ∧ a.gamePath = path) := by
        intro a ha hcon
        apply hdup
        rw [List.any_eq_true]
        exact ⟨a, ha, by simp [hcon.1, hcon.2]⟩
      split
      · exact ⟨journalInsert_keyUnique s.journal _ h.1,
          enqueueJob_pendPathUnique s _ h.2 hjob⟩
      · exact ⟨journalInsert_keyUnique s.journal _ h.1,
          enqueueJob_pendPathUnique s _ h.2 hjob⟩

lemma onEvent_inv (s : Sched) (event : WatchEvent) (now epoch : Nat) (h : SchedInv s) :
    SchedInv (onEvent s event now epoch) := by
  cases event with
  | gameInstalled path name => exact onEventEnqueue_inv s path name .newInstall now epoch h
  | gameModified path name => exact onEventEnqueue_inv s path name .reconcile now epoch h
  | gameUninstalled path name =>
    exact ⟨h.1.sublist (List.filter_sublist _), h.2.sublist (List.filter_sublist _)⟩

lemma applyOp_inv (s : Sched) (op : SchedOp) (h : SchedInv s) : SchedInv (applyOp s op) := by
  cases op with
  | ev event now epoch => exact onEvent_inv s event now epoch h
  | tk isIdle now => exact tick_inv s isIdle now h
  | completed key => exact jobCompleted_inv s key h
  | failed key error now => exact jobFailed_inv s key error now h
  | skip key reason => exact jobSkipped_inv s key reason h
  | pause =>
    simp only [applyOp, schedPause]
    split
    · exact h
    · exact h
  | resume =>
    simp only [applyOp, schedResume]
    split
    · split
      · exact h
      · exact h
    · exact h
  | cfg config => exact h

lemma runSched_inv (ops : List SchedOp) (s : Sched) (h : SchedInv s) :
    SchedInv (runSched s ops) := by
  induction ops generalizing s with
  | nil => exact h
  | cons op rest ih => exact ih (applyOp s op) (applyOp_inv s op h)

/-- C1 amended: along every interaction trace from a fresh scheduler, a
given idempotency key appears at most once among the journal entries, and
at most one pending-class job (`Pending`/`WaitingForSettle`/
`WaitingForIdle`) exists per `game_path` in the queue; jobs that left the
pending statuses may share an idempotency key with a later job. -/
theorem sched_idempotency_invariant (config : SchedConfig) (ops : List SchedOp) :
    keyUnique (runSched (Sched.new config) ops).journal
    ∧ pendPathUnique (runSched (Sched.new config) ops).queue :=
  runSched_inv ops (Sched.new config) ⟨List.Pairwise.nil, List.Pairwise.nil⟩

/-- Witness for C1's amended invariant on the duplicate-key trace: the
journal still has pairwise-distinct keys there. -/
theorem sched_idempotency_invariant_witness :
    keyUnique (runSched (Sched.new ⟨300, [], []⟩)
      [ .ev (.gameInstalled [103] none) 0 5
      , .completed [103, 58, 53]
      , .ev (.gameModified [103] none) 1 5 ]).journal :=
  (sched_idempotency_invariant ⟨300, [], []⟩
    [ .ev (.gameInstalled [103] none) 0 5
    , .completed [103, 58, 53]
    , .ev (.gameModified [103] none) 1 5 ]).1
